import Mathlib

/-!
Verification of the PDF page-splitting subsystem of the book application.

The subsystem has two halves:

* a Job Runner (route `extract-pdf-pages`): its `POST` handler initializes a
  durable status file and fires `processPdfInBackground`, which loads the
  source PDF, records the total page count, splits every page into its own
  single-page PDF artifact while advancing a `processedPages` counter, and
  finally marks the job `completed` (or `failed` when the source cannot be
  loaded);

* a Page Resolver (route `extract-pdf-page`): its `POST` handler serves a
  single page or an inclusive page range, preferring pre-split artifacts
  (`/pdf-pages/<fileId>/page-<n>.pdf`) and falling back to on-demand
  extraction, returning extracted bytes inline without persisting anything.

The definitions below are shallow embeddings of those handlers.  File-system
contents, PDF parsing, page extraction and base64 encoding are opaque
parameters; timestamps are abstract ticks.  JavaScript string operations
(`split('/')`, `replace('.pdf', '')`, Node's `path.basename(p, '.pdf')`) are
modelled character-list by character-list so that both identifier derivations
can be compared exactly.
-/

namespace BookPdf

/-! ## Status store (Job Runner, route `extract-pdf-pages`)

`status.json` as written by the route: a record with a status tag, page
counters, timestamps, and optional completion/error fields.  Each
`fs.writeFileSync(statusPath, ...)` in the source is modelled as a pure
function from the previously persisted record (spread semantics of
`{...currentStatus, ...}`) to the newly persisted one. -/

/-- Terminal and non-terminal status tags of a decomposition job. -/
inductive JStatus where
  | processing
  | completed
  | failed
deriving DecidableEq

/-- The durable status record persisted in `status.json`. -/
structure StatusRecord where
  status : JStatus
  totalPages : Nat
  processedPages : Nat
  startedAt : Nat
  updatedAt : Option Nat
  completedAt : Option Nat
  error : Option String
deriving DecidableEq

/-- The initial record written by the trigger `POST` handler:
`{status: processing, totalPages: 0, processedPages: 0, startedAt: now}`. -/
def initStatus (t0 : Nat) : StatusRecord :=
  { status := JStatus.processing, totalPages := 0, processedPages := 0,
    startedAt := t0, updatedAt := none, completedAt := none, error := none }

/-- The write performed once the page count is known.  The source rebuilds the
record literally — `{status: processing, totalPages, processedPages: 0,
startedAt: <re-read from the file>, updatedAt: now}` — keeping only
`startedAt` from the previous record. -/
def writeTotalPages (prev : StatusRecord) (total : Nat) (now : Nat) : StatusRecord :=
  { status := JStatus.processing, totalPages := total, processedPages := 0,
    startedAt := prev.startedAt, updatedAt := some now, completedAt := none,
    error := none }

/-- The per-page progress write: `{...currentStatus, processedPages:
pageNumber, updatedAt: now}`. -/
def writePageDone (prev : StatusRecord) (pageNumber : Nat) (now : Nat) : StatusRecord :=
  { prev with processedPages := pageNumber, updatedAt := some now }

/-- The terminal success write: `{...finalStatus, status: completed,
completedAt: now, updatedAt: now}`. -/
def writeCompleted (prev : StatusRecord) (now : Nat) : StatusRecord :=
  { prev with
    status := JStatus.completed
    completedAt := some now
    updatedAt := some now }

/-- The terminal failure write: `{...failedStatus, status: failed, error:
message, updatedAt: now}`. -/
def writeFailed (prev : StatusRecord) (msg : String) (now : Nat) : StatusRecord :=
  { prev with status := JStatus.failed, error := some msg, updatedAt := some now }

/-- The 1-based page numbers `1, ..., total` visited by the per-page loop
`for (let i = 0; i < totalPages; i++)` with `pageNumber = i + 1`. -/
def pageList (total : Nat) : List Nat :=
  (List.range total).map (fun i => i + 1)

/-- One run of the per-page loop.  `pageOk p` tells whether the iteration for
page `p` ran to completion (extraction, artifact write and status write all
succeeded); a failed iteration is caught, logged and skipped, writing
nothing.  Returns the list of status records written by the loop together
with the record persisted when the loop ends. -/
def runPages (pageOk : Nat → Bool) : StatusRecord → List Nat → Nat → List StatusRecord × StatusRecord
  | prev, [], _ => ([], prev)
  | prev, p :: ps, t =>
    if pageOk p then
      let s := writePageDone prev p t
      let r := runPages pageOk s ps (t + 1)
      (s :: r.1, r.2)
    else
      runPages pageOk prev ps (t + 1)

/-- All status records written during one uninterrupted job run, in write
order: the trigger handler's initial record, then the background task's
writes.  `load` is the outcome of reading and parsing the source document
(`Except.error msg` models the catch-all failure path with caught message
`msg`; `Except.ok total` a successful load reporting `total` pages). -/
def jobTrace (load : Except String Nat) (pageOk : Nat → Bool) (t0 : Nat) : List StatusRecord :=
  let s0 := initStatus t0
  match load with
  | Except.error msg => [s0, writeFailed s0 msg (t0 + 1)]
  | Except.ok total =>
    let s1 := writeTotalPages s0 total (t0 + 1)
    let r := runPages pageOk s1 (pageList total) (t0 + 2)
    s0 :: s1 :: (r.1 ++ [writeCompleted r.2 (t0 + 2 + total)])

/-- The last status record persisted by the job (the terminal write). -/
def jobFinal (load : Except String Nat) (pageOk : Nat → Bool) (t0 : Nat) : StatusRecord :=
  match load with
  | Except.error msg => writeFailed (initStatus t0) msg (t0 + 1)
  | Except.ok total =>
    let s1 := writeTotalPages (initStatus t0) total (t0 + 1)
    let r := runPages pageOk s1 (pageList total) (t0 + 2)
    writeCompleted r.2 (t0 + 2 + total)

/-- The page number of the last successful iteration among `ps`, with default
`d` when no iteration succeeded. -/
def lastSuccess (pageOk : Nat → Bool) : List Nat → Nat → Nat
  | [], d => d
  | p :: ps, d => lastSuccess pageOk ps (if pageOk p then p else d)

/-- Invariant of the records seen by the per-page loop: the total is fixed,
progress stays within it, and the record is a plain `processing` one. -/
def LoopInv (total : Nat) (s : StatusRecord) : Prop :=
  s.totalPages = total ∧ s.processedPages ≤ total
    ∧ s.status = JStatus.processing ∧ s.completedAt = none ∧ s.error = none

/-- A concrete load-failure message, used as witness input. -/
def msgBoom : String := "load failed"

/-- A prior status record showing partial progress, used to exhibit that the
total-pages write is not a frame-preserving update. -/
def prevWithProgress : StatusRecord :=
  { status := JStatus.processing, totalPages := 12, processedPages := 5,
    startedAt := 0, updatedAt := none, completedAt := none, error := none }

/-! ## Document identifier derivations

The Job Runner derives the identifier via `path.basename(pdfPath, '.pdf')`;
the Page Resolver derives it via `pdfUrl.split('/').pop() || ''` followed by
`.replace('.pdf', '')`.  Both are modelled on character lists. -/

/-- The character list of the extension `.pdf`. -/
def pdfExt : List Char := ['.', 'p', 'd', 'f']

/-- The path separator character. -/
def slashChar : Char := '/'

/-- JavaScript `str.split(sep)` for a single-character separator: splits on
every occurrence, keeping empty segments (so the result is never empty). -/
def splitChar (sep : Char) : List Char → List (List Char)
  | [] => [[]]
  | c :: cs =>
    if c == sep then [] :: splitChar sep cs
    else
      match splitChar sep cs with
      | [] => [[c]]
      | h :: t => (c :: h) :: t

/-- JavaScript `str.replace(pat, '')` with a plain-string pattern: removes
the first occurrence of `pat`, or returns the list unchanged when `pat` does
not occur. -/
def stripFirst (pat : List Char) : List Char → List Char
  | [] => []
  | c :: cs =>
    if pat <+: (c :: cs) then (c :: cs).drop pat.length
    else c :: stripFirst pat cs

/-- The Page Resolver's document identifier derivation:
`(pdfUrl.split('/').pop() || '').replace('.pdf', '')`. -/
def resolverFileIdL (pdfUrl : List Char) : List Char :=
  stripFirst pdfExt ((splitChar slashChar pdfUrl).getLast?.getD [])

/-- `resolverFileIdL` on strings. -/
def resolverFileId (pdfUrl : String) : String :=
  String.mk (resolverFileIdL pdfUrl.toList)

/-- Node's `path.posix.basename(p, ext)`: trailing separators are dropped,
the last segment is taken, and `ext` is stripped when the segment ends with
it without being equal to it.  A path of only separators gives the separator;
the empty path gives the empty string. -/
def nodeBasenameL (p ext : List Char) : List Char :=
  let trimmed := (p.reverse.dropWhile (fun c => c == slashChar)).reverse
  if trimmed = [] then (if p = [] then [] else [slashChar])
  else
    let seg := (trimmed.reverse.takeWhile (fun c => c != slashChar)).reverse
    if seg ≠ ext ∧ ext <:+ seg then seg.take (seg.length - ext.length)
    else seg

/-- The Job Runner's document identifier derivation:
`path.basename(pdfPath, '.pdf')`. -/
def jobFileIdL (pdfPath : List Char) : List Char :=
  nodeBasenameL pdfPath pdfExt

/-- `jobFileIdL` on strings. -/
def jobFileId (pdfPath : String) : String :=
  String.mk (jobFileIdL pdfPath.toList)

/-- A local document path on which the two identifier derivations disagree:
its filename still ends in a real `.pdf` extension, but also contains
`.pdf` earlier in the stem. -/
def cexPath : String := "/pdf/a.pdfb.pdf"

/-- What the Job Runner derives from `cexPath` (the suffix is stripped). -/
def cexJobId : String := "a.pdfb"

/-- What the Page Resolver derives from `cexPath` (the first occurrence is
removed). -/
def cexResolverId : String := "ab.pdf"

/-! ## Page Resolver (route `extract-pdf-page`, POST handler)

The handler is embedded as a pure function of: the file-system contents
(`fs : String → Option String`, mapping a path to its bytes, so that
`fs.existsSync` is `Option.isSome`), the parsing capability (`parse`, bytes
to page count, `none` when `PDFDocument.load` throws), the per-page
extraction capability (`extract`, yielding the serialized single-page
bytes), and the base64 encoder (`b64`).  It returns the response, the file
system after the request, and the list of pages extracted on demand. -/

/-- One entry of a range response: `{pageNumber, url, isPreProcessed}`. -/
structure PageEntry where
  pageNumber : Int
  url : String
  isPreProcessed : Bool
deriving DecidableEq

instance : IsTotal PageEntry (fun a b => a.pageNumber ≤ b.pageNumber) :=
  ⟨fun a b => Int.le_total a.pageNumber b.pageNumber⟩

instance : IsTrans PageEntry (fun a b => a.pageNumber ≤ b.pageNumber) :=
  ⟨fun _ _ _ h1 h2 => le_trans h1 h2⟩

/-- The possible responses of the POST handler. -/
inductive ResolveResult where
  | external (url : String)
  | notFound
  | badRequest (msg : String)
  | serverError
  | rangeOk (pages : List PageEntry) (totalPages : Nat) (fromPage toPage : Int)
  | pageUrl (url : String) (pageNumber : Int)
  | pageBytes (bytes : String) (pageNumber : Int)
deriving DecidableEq

/-- Response message for an invalid range. -/
def invalidRangeMsg : String := "Invalid page range"

/-- Response message for an invalid single page number. -/
def invalidPageMsg : String := "Invalid page number"

/-- Response message when neither a page number nor a full range is given. -/
def missingPageMsg : String := "Missing pageNumber or page range"

/-- The local-document url prefix checked by `pdfUrl.startsWith('/pdf/')`. -/
def localPrefix : String := "/pdf/"

/-- The prefix added by `path.join(process.cwd(), 'public', ...)`. -/
def publicDir : String := "public"

/-- The data-url prefix of an inline extracted page. -/
def dataUrlPrefix : String := "data:application/pdf;base64,"

/-- The artifact directory prefix `/pdf-pages/`. -/
def pagesDirPrefix : String := "/pdf-pages/"

/-- The per-page artifact file prefix `/page-`. -/
def pageFilePrefix : String := "/page-"

/-- The artifact file suffix `.pdf`. -/
def pdfSuffix : String := ".pdf"

/-- The pre-processed page url `/pdf-pages/<fileId>/page-<n>.pdf`. -/
def preUrl (fileId : String) (page : Int) : String :=
  pagesDirPrefix ++ fileId ++ pageFilePrefix ++ toString page ++ pdfSuffix

/-- The ascending page numbers visited by
`for (let page = fromPage; page <= toPage; page++)`. -/
def pagesInRange (f t : Int) : List Int :=
  (List.range (t + 1 - f).toNat).map (fun (i : Nat) => f + (i : Int))

/-- The pages array built by the range branch: one pass over the range
pushes an entry for every cached page (in loop order) and collects the
uncached pages; a second pass appends one inline-extracted entry per
uncached page; finally the array is sorted by page number
(`pages.sort((a, b) => a.pageNumber - b.pageNumber)`). -/
def buildRangePages (cached : Int → Bool) (fileId : String) (enc : Int → String)
    (f t : Int) : List PageEntry :=
  let ps := pagesInRange f t
  let pre := (ps.filter (fun p => cached p)).map
    (fun p => { pageNumber := p, url := preUrl fileId p, isPreProcessed := true })
  let ext := (ps.filter (fun p => !cached p)).map
    (fun p => { pageNumber := p, url := dataUrlPrefix ++ enc p, isPreProcessed := false })
  List.insertionSort (fun a b => a.pageNumber ≤ b.pageNumber) (pre ++ ext)

/-- The POST handler of the Page Resolver.  Mirrors the source order:
external-url check, existence check (404), document load (500 on parse
failure), then the range branch when both `fromPage` and `toPage` are
supplied, else the single-page branch. -/
def postExtract (fs : String → Option String) (parse : String → Option Nat)
    (extract : Int → String) (b64 : String → String) (pdfUrl : String)
    (pageNumber fromPage toPage : Option Int) :
    ResolveResult × (String → Option String) × List Int :=
  if localPrefix.toList <+: pdfUrl.toList then
    match fs (publicDir ++ pdfUrl) with
    | none => (ResolveResult.notFound, fs, [])
    | some bytes =>
      match parse bytes with
      | none => (ResolveResult.serverError, fs, [])
      | some totalPages =>
        match fromPage, toPage with
        | some f, some t =>
          if f < 1 ∨ t < 1 ∨ f > (totalPages : Int) ∨ t > (totalPages : Int) ∨ f > t then
            (ResolveResult.badRequest invalidRangeMsg, fs, [])
          else
            let fileId := resolverFileId pdfUrl
            let cached := fun p : Int => (fs (publicDir ++ preUrl fileId p)).isSome
            (ResolveResult.rangeOk
                (buildRangePages cached fileId (fun p => b64 (extract p)) f t)
                totalPages f t,
              fs, (pagesInRange f t).filter (fun p => !cached p))
        | _, _ =>
          match pageNumber with
          | none => (ResolveResult.badRequest missingPageMsg, fs, [])
          | some p =>
            if p < 1 ∨ p > (totalPages : Int) then
              (ResolveResult.badRequest invalidPageMsg, fs, [])
            else
              let fileId := resolverFileId pdfUrl
              if (fs (publicDir ++ preUrl fileId p)).isSome then
                (ResolveResult.pageUrl (preUrl fileId p) p, fs, [])
              else
                (ResolveResult.pageBytes (extract p) p, fs, [p])
  else
    (ResolveResult.external pdfUrl, fs, [])

/-- A concrete local document url, used as witness input. -/
def wDocUrl : String := "/pdf/doc.pdf"

/-- Concrete document bytes, used as witness input. -/
def wDocBytes : String := "sourcebytes"

/-- A concrete file system: the source document exists and page `2` (only)
has a pre-split artifact. -/
def wFs : String → Option String :=
  fun s =>
    if s = publicDir ++ wDocUrl then some wDocBytes
    else if s = publicDir ++ preUrl (resolverFileId wDocUrl) 2 then some wDocBytes
    else none

/-- A concrete parser reporting five pages. -/
def wParse : String → Option Nat := fun _ => some 5

/-- A concrete extraction capability. -/
def wExtract : Int → String := fun p => toString p

/-- A concrete base64 encoder. -/
def wB64 : String → String := fun s => s

/-! ### Generic lemmas about the per-page loop -/

theorem runPages_inv (pageOk : Nat → Bool) (total : Nat) (ps : List Nat) :
    ∀ (prev : StatusRecord) (t : Nat), LoopInv total prev →
      (∀ p ∈ ps, p ≤ total) →
      (∀ s ∈ (runPages pageOk prev ps t).1, LoopInv total s)
        ∧ LoopInv total (runPages pageOk prev ps t).2 := by
  induction ps with
  | nil =>
    intro prev t hinv _
    exact ⟨by simp [runPages], by simpa [runPages] using hinv⟩
  | cons p ps ih =>
    intro prev t hinv hps
    by_cases hp : pageOk p
    · have hinv2 : LoopInv total (writePageDone prev p t) := by
        obtain ⟨h1, h2, h3, h4, h5⟩ := hinv
        exact ⟨h1, by simpa [writePageDone] using hps p (List.mem_cons_self p ps),
          h3, h4, h5⟩
      have hrec := ih (writePageDone prev p t) (t + 1) hinv2
        (fun q hq => hps q (List.mem_cons_of_mem p hq))
      refine ⟨?_, by simpa [runPages, hp] using hrec.2⟩
      intro s hs
      simp only [runPages, hp, if_true] at hs
      rcases List.mem_cons.mp hs with rfl | hs2
      · exact hinv2
      · exact hrec.1 s hs2
    · have hrec := ih prev (t + 1) hinv
        (fun q hq => hps q (List.mem_cons_of_mem p hq))
      exact ⟨by simpa [runPages, hp] using hrec.1, by simpa [runPages, hp] using hrec.2⟩

theorem runPages_final_processedPages (pageOk : Nat → Bool) (ps : List Nat) :
    ∀ (prev : StatusRecord) (t : Nat),
      (runPages pageOk prev ps t).2.processedPages
        = lastSuccess pageOk ps prev.processedPages := by
  induction ps with
  | nil => intro prev t; simp [runPages, lastSuccess]
  | cons p ps ih =>
    intro prev t
    by_cases hp : pageOk p <;>
      simp [runPages, hp, lastSuccess, ih, writePageDone]

theorem runPages_chain (pageOk : Nat → Bool) (ps : List Nat) :
    ∀ (prev x : StatusRecord) (t : Nat), List.Pairwise (· ≤ ·) ps →
      (∀ p ∈ ps, prev.processedPages ≤ p) →
      (runPages pageOk prev ps t).2.processedPages ≤ x.processedPages →
      List.Chain' (· ≤ ·)
        (((prev :: (runPages pageOk prev ps t).1) ++ [x]).map StatusRecord.processedPages) := by
  induction ps with
  | nil =>
    intro prev x t _ _ hx
    simpa [runPages] using hx
  | cons p ps ih =>
    intro prev x t hpw hge hx
    by_cases hp : pageOk p
    · simp only [runPages, hp, if_true] at hx ⊢
      rw [List.cons_append, List.map_cons, List.cons_append, List.map_cons,
        List.chain'_cons]
      refine ⟨by simpa [writePageDone] using hge p (List.mem_cons_self p ps), ?_⟩
      have hge2 : ∀ q ∈ ps, (writePageDone prev p t).processedPages ≤ q := by
        intro q hq
        simpa [writePageDone] using List.rel_of_pairwise_cons hpw hq
      have := ih (writePageDone prev p t) x (t + 1) hpw.of_cons hge2 hx
      simpa using this
    · simp only [runPages, hp, if_false] at hx ⊢
      exact ih prev x (t + 1) hpw.of_cons
        (fun q hq => hge q (List.mem_cons_of_mem p hq)) hx

theorem pairwise_le_pageList (total : Nat) :
    List.Pairwise (· ≤ ·) (pageList total) := by
  refine List.Pairwise.map _ (fun a b (h : a < b) => ?_) (List.pairwise_lt_range total)
  omega

theorem mem_pageList_le (total : Nat) : ∀ p ∈ pageList total, p ≤ total := by
  intro p hp
  simp only [pageList, List.mem_map, List.mem_range] at hp
  omega

/-! ### Claim theorems for the Job Runner -/

/-- C4: every status record written during a single decomposition job
satisfies `processedPages ≤ totalPages` (in fact unconditionally, hence in
particular once `totalPages` has been set), `completedAt` is present iff the
status is `completed`, and `error` is present iff the status is `failed`. -/
theorem statusRecord_invariants (load : Except String Nat) (pageOk : Nat → Bool)
    (t0 : Nat) (s : StatusRecord) (hs : s ∈ jobTrace load pageOk t0) :
    s.processedPages ≤ s.totalPages
      ∧ (s.completedAt.isSome ↔ s.status = JStatus.completed)
      ∧ (s.error.isSome ↔ s.status = JStatus.failed) := by
  cases load with
  | error msg =>
    simp only [jobTrace, List.mem_cons, List.mem_singleton, List.not_mem_nil,
      or_false] at hs
    rcases hs with rfl | rfl <;> simp [initStatus, writeFailed]
  | ok total =>
    have hinv1 : LoopInv total (writeTotalPages (initStatus t0) total (t0 + 1)) := by
      refine ⟨rfl, by simp [writeTotalPages], rfl, rfl, rfl⟩
    have hrun := runPages_inv pageOk total (pageList total)
      (writeTotalPages (initStatus t0) total (t0 + 1)) (t0 + 2) hinv1
      (mem_pageList_le total)
    simp only [jobTrace, List.mem_cons, List.mem_append, List.mem_singleton] at hs
    rcases hs with rfl | rfl | hs | rfl | h
    · simp [initStatus]
    · obtain ⟨h1, h2, h3, h4, h5⟩ := hinv1
      exact ⟨h1 ▸ h2, by simp [h3, h4], by simp [h3, h5]⟩
    · obtain ⟨h1, h2, h3, h4, h5⟩ := hrun.1 s hs
      exact ⟨h1 ▸ h2, by simp [h3, h4], by simp [h3, h5]⟩
    · obtain ⟨h1, h2, h3, h4, h5⟩ := hrun.2
      exact ⟨by simpa [writeCompleted, h1] using h2,
        by simp [writeCompleted], by simp [writeCompleted, h5]⟩
    · exact absurd h (List.not_mem_nil s)

theorem statusRecord_invariants_witness :
    initStatus 0 ∈ jobTrace (Except.ok 1) (fun _ => true) 0
      ∧ ((initStatus 0).processedPages ≤ (initStatus 0).totalPages
        ∧ ((initStatus 0).completedAt.isSome ↔ (initStatus 0).status = JStatus.completed)
        ∧ ((initStatus 0).error.isSome ↔ (initStatus 0).status = JStatus.failed)) :=
  ⟨by decide,
    statusRecord_invariants (Except.ok 1) (fun _ => true) 0 (initStatus 0) (by decide)⟩

/-- C6: within one uninterrupted job run, the successive `processedPages`
values written to the status store never decrease, from the initial record
through the terminal write. -/
theorem processedPages_monotone (load : Except String Nat) (pageOk : Nat → Bool)
    (t0 : Nat) :
    List.Chain' (· ≤ ·) ((jobTrace load pageOk t0).map StatusRecord.processedPages) := by
  cases load with
  | error msg => simp [jobTrace, initStatus, writeFailed]
  | ok total =>
    have hchain := runPages_chain pageOk (pageList total)
      (writeTotalPages (initStatus t0) total (t0 + 1))
      (writeCompleted
        (runPages pageOk (writeTotalPages (initStatus t0) total (t0 + 1))
          (pageList total) (t0 + 2)).2 (t0 + 2 + total))
      (t0 + 2) (pairwise_le_pageList total)
      (fun p _ => by simp [writeTotalPages])
      (by simp [writeCompleted])
    have h0 : (initStatus t0).processedPages
        ≤ (writeTotalPages (initStatus t0) total (t0 + 1)).processedPages := by
      simp [initStatus, writeTotalPages]
    simp only [jobTrace]
    rw [List.map_cons, List.map_cons]
    exact List.chain'_cons.mpr ⟨h0, by simpa using hchain⟩

theorem lastSuccess_append_single (pageOk : Nat → Bool) (xs : List Nat) (x : Nat) :
    ∀ d, lastSuccess pageOk (xs ++ [x]) d
      = if pageOk x then x else lastSuccess pageOk xs d := by
  induction xs with
  | nil => intro d; simp [lastSuccess]
  | cons y ys ih => intro d; simp [lastSuccess, ih]

theorem pageList_succ (k : Nat) : pageList (k + 1) = pageList k ++ [k + 1] := by
  simp [pageList, List.range_succ]

/-- C3 counterexample: for a 1-page document whose only page fails, the job
still terminates `completed`, but the recorded `processedPages` is `0`, not
the last page number attempted (`1`): the failed iteration skips its status
write, so the counter keeps the value of the last successful iteration. -/
theorem processedPages_ne_lastAttempted :
    (jobFinal (Except.ok 1) (fun _ => false) 0).status = JStatus.completed
      ∧ (jobFinal (Except.ok 1) (fun _ => false) 0).processedPages = 0
      ∧ (0 : Nat) ≠ 1 := by decide

/-- C3 (amended): a per-page failure does not abort the job — the loop
continues and the job always reaches terminal status `completed`; after the
loop the recorded `processedPages` equals the page number of the last
iteration that fully succeeded (`0` if none did), which coincides with the
last page number attempted whenever the final page's iteration succeeds. -/
theorem job_completes_with_lastSuccess (total t0 : Nat) (pageOk : Nat → Bool) :
    (jobFinal (Except.ok total) pageOk t0).status = JStatus.completed
      ∧ (jobFinal (Except.ok total) pageOk t0).processedPages
          = lastSuccess pageOk (pageList total) 0
      ∧ (pageOk total = true → 1 ≤ total →
          (jobFinal (Except.ok total) pageOk t0).processedPages = total) := by
  have hfin : (jobFinal (Except.ok total) pageOk t0).processedPages
      = lastSuccess pageOk (pageList total) 0 := by
    simp only [jobFinal, writeCompleted]
    rw [runPages_final_processedPages]
    simp [writeTotalPages]
  refine ⟨rfl, hfin, ?_⟩
  intro hok htot
  obtain ⟨k, rfl⟩ : ∃ k, total = k + 1 := ⟨total - 1, by omega⟩
  rw [hfin, pageList_succ, lastSuccess_append_single, hok]
  simp

theorem job_completes_with_lastSuccess_witness :
    (jobFinal (Except.ok 2) (fun _ => true) 0).status = JStatus.completed
      ∧ (jobFinal (Except.ok 2) (fun _ => true) 0).processedPages = 2 :=
  ⟨(job_completes_with_lastSuccess 2 0 (fun _ => true)).1,
    (job_completes_with_lastSuccess 2 0 (fun _ => true)).2.2 rfl (by decide)⟩

/-- C5: if loading the source document fails at the start of the background
job, the status record transitions to `failed` carrying the (non-empty)
caught error message, and `processedPages` keeps its prior value — `0` for a
fresh job — rather than being cleared or removed. -/
theorem loadFailure_marksFailed (msg : String) (pageOk : Nat → Bool) (t0 : Nat)
    (hmsg : msg ≠ "") :
    (jobFinal (Except.error msg) pageOk t0).status = JStatus.failed
      ∧ (jobFinal (Except.error msg) pageOk t0).error = some msg
      ∧ msg ≠ ""
      ∧ (jobFinal (Except.error msg) pageOk t0).processedPages
          = (initStatus t0).processedPages
      ∧ (initStatus t0).processedPages = 0 :=
  ⟨rfl, rfl, hmsg, rfl, rfl⟩

theorem loadFailure_marksFailed_witness :
    (jobFinal (Except.error msgBoom) (fun _ => true) 0).status = JStatus.failed
      ∧ (jobFinal (Except.error msgBoom) (fun _ => true) 0).error = some msgBoom
      ∧ msgBoom ≠ ""
      ∧ (jobFinal (Except.error msgBoom) (fun _ => true) 0).processedPages
          = (initStatus 0).processedPages
      ∧ (initStatus 0).processedPages = 0 :=
  loadFailure_marksFailed msgBoom (fun _ => true) 0 (by decide)

/-- C7 counterexample: the total-pages write does not preserve
`processedPages` for every prior record — it rewrites it literally to `0`
(the source writes a fresh object `{status: processing, totalPages,
processedPages: 0, startedAt: <re-read>, updatedAt: now}`), so a prior record
with `processedPages = 5` is not preserved. -/
theorem setTotalPages_not_frame :
    (writeTotalPages prevWithProgress 20 1).processedPages
      ≠ prevWithProgress.processedPages := by decide

/-- C7 (amended): the total-pages write preserves `startedAt` and bumps
`updatedAt`, but rebuilds the rest of the record literally (`status`
`processing`, `processedPages` `0`, no `completedAt`, no `error`).  Hence it
changes only `totalPages` and `updatedAt` exactly for prior records that
already have status `processing`, `processedPages = 0` and no
`completedAt`/`error` — which is the state the freshly initialized record is
in when this write occurs in a job run. -/
theorem setTotalPages_frame (prev : StatusRecord) (total now : Nat)
    (h1 : prev.status = JStatus.processing) (h2 : prev.processedPages = 0)
    (h3 : prev.completedAt = none) (h4 : prev.error = none) :
    writeTotalPages prev total now
      = { prev with totalPages := total, updatedAt := some now } := by
  cases prev
  simp_all [writeTotalPages]

theorem setTotalPages_frame_witness :
    writeTotalPages (initStatus 3) 7 9
      = { initStatus 3 with totalPages := 7, updatedAt := some 9 } :=
  setTotalPages_frame (initStatus 3) 7 9 rfl rfl rfl rfl

/-! ### Lemmas about the identifier derivations -/

theorem splitChar_ne_nil (sep : Char) (l : List Char) : splitChar sep l ≠ [] := by
  cases l with
  | nil => simp [splitChar]
  | cons c cs =>
    simp only [splitChar]
    by_cases h : c == sep
    · simp [h]
    · simp only [h, if_false]
      cases splitChar sep cs <;> simp

theorem splitChar_two_le (sep : Char) (l : List Char) (h : sep ∈ l) :
    2 ≤ (splitChar sep l).length := by
  induction l with
  | nil => cases h
  | cons c cs ih =>
    simp only [splitChar]
    by_cases hc : c == sep
    · simp only [hc, if_true, List.length_cons]
      have h1 : splitChar sep cs ≠ [] := splitChar_ne_nil sep cs
      cases hr : splitChar sep cs with
      | nil => exact absurd hr h1
      | cons a t => simp
    · have hcs : sep ∈ cs := by
        rcases List.mem_cons.mp h with heq | h2
        · exact absurd (beq_iff_eq.mpr heq.symm) (by simpa using hc)
        · exact h2
      have h2 := ih hcs
      simp only [hc, if_false]
      cases hr : splitChar sep cs with
      | nil => exact absurd hr (splitChar_ne_nil sep cs)
      | cons a t =>
        rw [hr] at h2
        simpa using h2

theorem getLast?_splitChar_append (sep : Char) (xs ys : List Char) :
    (splitChar sep (xs ++ (sep :: ys))).getLast? = (splitChar sep ys).getLast? := by
  induction xs with
  | nil =>
    rw [List.nil_append]
    simp only [splitChar, beq_self_eq_true, if_true]
    cases hr : splitChar sep ys with
    | nil => exact absurd hr (splitChar_ne_nil sep ys)
    | cons a t => exact List.getLast?_cons_cons
  | cons x xs ih =>
    rw [List.cons_append]
    simp only [splitChar]
    cases hxe : x == sep
    · cases hr : splitChar sep (xs ++ (sep :: ys)) with
      | nil => exact absurd hr (splitChar_ne_nil sep _)
      | cons a t =>
        cases t with
        | nil =>
          have h2 := splitChar_two_le sep (xs ++ (sep :: ys)) (by simp)
          rw [hr] at h2
          simp at h2
        | cons b t2 =>
          rw [hr] at ih
          rw [List.getLast?_cons_cons] at ih
          rw [if_neg (by decide)]
          show ((x :: a) :: b :: t2).getLast? = (splitChar sep ys).getLast?
          rw [List.getLast?_cons_cons]
          exact ih
    · rw [if_pos rfl]
      cases hr : splitChar sep (xs ++ (sep :: ys)) with
      | nil => exact absurd hr (splitChar_ne_nil sep _)
      | cons a t =>
        rw [hr] at ih
        rw [List.getLast?_cons_cons]
        exact ih

theorem splitChar_of_not_mem (sep : Char) (l : List Char) (h : sep ∉ l) :
    splitChar sep l = [l] := by
  induction l with
  | nil => rfl
  | cons c cs ih =>
    have hc : (c == sep) = false := by
      have : ¬ sep = c := fun heq => h (heq ▸ List.mem_cons_self c cs)
      simpa using fun heq => this (heq.symm)
    have hcs := ih (fun h2 => h (List.mem_cons_of_mem c h2))
    simp [splitChar, hc, hcs]

theorem pdfExt_take_ne_drop (k : Nat) (h1 : 1 ≤ k) (h2 : k ≤ 3) :
    pdfExt.take (4 - k) ≠ pdfExt.drop k := by
  interval_cases k <;> decide

theorem pdfExt_prefix_of_append (l : List Char) (h : pdfExt <+: (l ++ pdfExt)) :
    l = [] ∨ pdfExt <+: l := by
  by_cases h4 : 4 ≤ l.length
  · right
    exact List.prefix_of_prefix_length_le h (List.prefix_append l pdfExt)
      (by simpa [pdfExt] using h4)
  · left
    by_contra hne
    obtain ⟨r, hr⟩ := h
    have hk1 : 1 ≤ l.length := by
      cases l with
      | nil => exact absurd rfl hne
      | cons a t => simp
    have htake : pdfExt.take l.length = l := by
      have := congrArg (List.take l.length) hr
      rwa [List.take_append_of_le_length (by simp [pdfExt]; omega),
        List.take_left] at this
    have hdrop : pdfExt.drop l.length ++ r = pdfExt := by
      have := congrArg (List.drop l.length) hr
      rwa [List.drop_append_of_le_length (by simp [pdfExt]; omega),
        List.drop_left] at this
    have hlen : (pdfExt.drop l.length).length = 4 - l.length := by
      simp [pdfExt]
    have hoverlap : pdfExt.drop l.length = pdfExt.take (4 - l.length) := by
      have := congrArg (List.take (4 - l.length)) hdrop
      rwa [List.take_left' hlen] at this
    exact pdfExt_take_ne_drop l.length hk1 (by omega) hoverlap.symm

theorem stripFirst_pdfExt_append (s : List Char) (h : ¬ pdfExt <:+: s) :
    stripFirst pdfExt (s ++ pdfExt) = s := by
  induction s with
  | nil => decide
  | cons c cs ih =>
    rw [List.cons_append]
    simp only [stripFirst]
    by_cases hp : pdfExt <+: (c :: (cs ++ pdfExt))
    · exfalso
      have := pdfExt_prefix_of_append (c :: cs) (by simpa using hp)
      rcases this with h0 | h0
      · exact List.noConfusion h0
      · exact h h0.isInfix
    · rw [if_neg hp]
      have ihh := ih (fun h2 => h (h2.trans (List.suffix_cons c cs).isInfix))
      rw [ihh]

theorem takeWhile_append_sep (p : Char → Bool) (xs ys : List Char) (y : Char)
    (hxs : ∀ x ∈ xs, p x = true) (hy : p y = false) :
    (xs ++ y :: ys).takeWhile p = xs := by
  induction xs with
  | nil => simp [List.takeWhile_cons, hy]
  | cons a t ih =>
    have ha := hxs a (List.mem_cons_self a t)
    simp [List.takeWhile_cons, ha,
      ih (fun x hx => hxs x (List.mem_cons_of_mem a hx))]

theorem trim_slash_noop (l init : List Char) (c : Char)
    (hl : l = init ++ [c]) (hc : (c == slashChar) = false) :
    (l.reverse.dropWhile (fun x => x == slashChar)).reverse = l := by
  subst hl
  rw [List.reverse_append]
  simp [List.dropWhile, hc]

theorem seg_of_append (rest pre : List Char) (hrest : slashChar ∉ rest) :
    (((pre ++ slashChar :: rest).reverse).takeWhile (fun x => x != slashChar)).reverse
      = rest := by
  have h1 : (pre ++ slashChar :: rest).reverse
      = rest.reverse ++ slashChar :: pre.reverse := by
    simp
  rw [h1, takeWhile_append_sep _ _ _ _ ?hall ?hsep, List.reverse_reverse]
  case hall =>
    intro x hx
    have : x ≠ slashChar := fun heq => hrest (heq ▸ List.mem_reverse.mp hx)
    simpa using this
  case hsep => simp

theorem jobFileIdL_eq (pre s : List Char) (hs : s ≠ []) (hsl : slashChar ∉ s) :
    jobFileIdL (pre ++ slashChar :: (s ++ pdfExt)) = s := by
  have htrim := trim_slash_noop (pre ++ slashChar :: (s ++ pdfExt))
    (pre ++ slashChar :: (s ++ ['.', 'p', 'd'])) 'f' (by simp [pdfExt]) (by decide)
  have hseg := seg_of_append (s ++ pdfExt) pre (by
    simp only [List.mem_append]
    rintro (h | h)
    · exact hsl h
    · revert h
      decide)
  have hnil : pre ++ slashChar :: (s ++ pdfExt) ≠ [] := by simp
  simp only [jobFileIdL, nodeBasenameL]
  rw [htrim, if_neg hnil, hseg]
  have hne : s ++ pdfExt ≠ pdfExt := by
    intro heq
    apply hs
    have := congrArg List.length heq
    simp at this
    exact this
  rw [if_pos ⟨hne, List.suffix_append s pdfExt⟩]
  have hlen : (s ++ pdfExt).length - pdfExt.length = s.length := by
    simp
  rw [hlen, List.take_left]

theorem resolverFileIdL_eq (pre s : List Char) (hsl : slashChar ∉ s)
    (hinf : ¬ pdfExt <:+: s) :
    resolverFileIdL (pre ++ slashChar :: (s ++ pdfExt)) = s := by
  have h1 := getLast?_splitChar_append slashChar pre (s ++ pdfExt)
  have h2 : splitChar slashChar (s ++ pdfExt) = [s ++ pdfExt] :=
    splitChar_of_not_mem slashChar (s ++ pdfExt) (by
      simp only [List.mem_append]
      rintro (h | h)
      · exact hsl h
      · revert h
        decide)
  simp only [resolverFileIdL, h1, h2, List.getLast?_singleton, Option.getD_some]
  exact stripFirst_pdfExt_append s hinf

/-- C2 counterexample: on the local path `/pdf/a.pdfb.pdf` the Job Runner's
derivation (`path.basename(p, '.pdf')`, which strips a final `.pdf` suffix)
yields `a.pdfb`, while the Page Resolver's derivation
(`.replace('.pdf', '')`, which removes the first `.pdf` occurrence anywhere)
yields `ab.pdf` — so writer and reader address different artifact
locations. -/
theorem fileId_derivations_disagree :
    jobFileId cexPath = cexJobId ∧ resolverFileId cexPath = cexResolverId
      ∧ cexJobId ≠ cexResolverId := by decide

/-- C2 (amended): the two derivations agree — both yielding the filename stem
`s` — for every path whose final `/`-segment has the shape `s.pdf` with `s`
non-empty and not containing `.pdf` as a substring; for other local paths
(e.g. `/pdf/a.pdfb.pdf`) the derivations can disagree. -/
theorem fileId_derivations_agree (pre s : List Char) (hs : s ≠ [])
    (hsl : slashChar ∉ s) (hinf : ¬ pdfExt <:+: s) :
    jobFileIdL (pre ++ slashChar :: (s ++ pdfExt)) = s
      ∧ resolverFileIdL (pre ++ slashChar :: (s ++ pdfExt)) = s :=
  ⟨jobFileIdL_eq pre s hs hsl, resolverFileIdL_eq pre s hsl hinf⟩

theorem fileId_derivations_agree_witness :
    jobFileIdL (['p'] ++ slashChar :: (['a'] ++ pdfExt)) = ['a']
      ∧ resolverFileIdL (['p'] ++ slashChar :: (['a'] ++ pdfExt)) = ['a'] :=
  fileId_derivations_agree ['p'] ['a'] (by decide) (by decide) (by decide)

/-! ### Lemmas about the range branch -/

theorem length_pagesInRange (f t : Int) :
    (pagesInRange f t).length = (t + 1 - f).toNat := by
  rw [pagesInRange, List.length_map, List.length_range]

theorem pairwise_lt_pagesInRange (f t : Int) :
    List.Pairwise (· < ·) (pagesInRange f t) := by
  rw [pagesInRange, List.pairwise_map]
  exact (List.pairwise_lt_range _).imp (fun h => by omega)

theorem mem_pagesInRange (f t p : Int) :
    p ∈ pagesInRange f t ↔ f ≤ p ∧ p ≤ t := by
  rw [pagesInRange]
  simp only [List.mem_map, List.mem_range]
  constructor
  · rintro ⟨i, hi, rfl⟩
    constructor
    · omega
    · omega
  · rintro ⟨h1, h2⟩
    exact ⟨(p - f).toNat, by omega, by omega⟩

theorem buildRangePages_map_pageNumber (cached : Int → Bool) (fileId : String)
    (enc : Int → String) (f t : Int) :
    (buildRangePages cached fileId enc f t).map PageEntry.pageNumber
      = pagesInRange f t := by
  set ps := pagesInRange f t with hps
  set pre := (ps.filter (fun p => cached p)).map
    (fun p => PageEntry.mk p (preUrl fileId p) true) with hpre
  set ext := (ps.filter (fun p => !cached p)).map
    (fun p => PageEntry.mk p (dataUrlPrefix ++ enc p) false) with hext
  have hmap : (pre ++ ext).map PageEntry.pageNumber
      = ps.filter (fun p => cached p) ++ ps.filter (fun p => !cached p) := by
    simp [hpre, hext, Function.comp_def]
  have hperm : List.Perm
      ((buildRangePages cached fileId enc f t).map PageEntry.pageNumber) ps := by
    have hp1 : List.Perm (buildRangePages cached fileId enc f t) (pre ++ ext) :=
      List.perm_insertionSort _ _
    have hp2 := hp1.map PageEntry.pageNumber
    rw [hmap] at hp2
    exact hp2.trans (List.filter_append_perm _ ps)
  have hsorted1 : List.Sorted (· ≤ ·)
      ((buildRangePages cached fileId enc f t).map PageEntry.pageNumber) := by
    have hs := List.sorted_insertionSort
      (fun a b : PageEntry => a.pageNumber ≤ b.pageNumber) (pre ++ ext)
    exact List.Pairwise.map _ (fun a b h => h) hs
  have hsorted2 : List.Sorted (· ≤ ·) ps :=
    (pairwise_lt_pagesInRange f t).imp (fun h => le_of_lt h)
  exact List.eq_of_perm_of_sorted hperm hsorted1 hsorted2

/-! ### Claim theorems for the Page Resolver -/

/-- C1: for every valid range request (`1 ≤ fromPage ≤ toPage ≤
totalPages`), the range fetch returns exactly `toPage - fromPage + 1` page
entries, sorted ascending by page number, with no duplicate and no missing
page number, regardless of which pages are served from the pre-split
artifact cache (an arbitrary file system `fs`) and which are extracted on
demand. -/
theorem rangeFetch_complete_sorted (fs : String → Option String)
    (parse : String → Option Nat) (extract : Int → String) (b64 : String → String)
    (pdfUrl : String) (pn : Option Int) (f t : Int) (T : Nat) (bytes : String)
    (hloc : localPrefix.toList <+: pdfUrl.toList)
    (hfs : fs (publicDir ++ pdfUrl) = some bytes)
    (hparse : parse bytes = some T)
    (h1 : 1 ≤ f) (h2 : f ≤ t) (h3 : t ≤ (T : Int)) :
    ∃ pages : List PageEntry,
      (postExtract fs parse extract b64 pdfUrl pn (some f) (some t)).1
          = ResolveResult.rangeOk pages T f t
        ∧ pages.length = (t - f + 1).toNat
        ∧ pages.map PageEntry.pageNumber = pagesInRange f t
        ∧ List.Chain' (fun a b => a.pageNumber < b.pageNumber) pages
        ∧ (pages.map PageEntry.pageNumber).Nodup
        ∧ (∀ p : Int, p ∈ pages.map PageEntry.pageNumber ↔ f ≤ p ∧ p ≤ t) := by
  have hcond : ¬ (f < 1 ∨ t < 1 ∨ f > (T : Int) ∨ t > (T : Int) ∨ f > t) := by
    omega
  refine ⟨buildRangePages
      (fun p => (fs (publicDir ++ preUrl (resolverFileId pdfUrl) p)).isSome)
      (resolverFileId pdfUrl) (fun p => b64 (extract p)) f t, ?_, ?_, ?_, ?_, ?_, ?_⟩
  · simp only [postExtract, hfs, hparse, if_pos hloc, if_neg hcond]
  · rw [← List.length_map (buildRangePages _ _ _ f t) PageEntry.pageNumber,
      buildRangePages_map_pageNumber, length_pagesInRange]
    omega
  · exact buildRangePages_map_pageNumber _ _ _ f t
  · have hch : List.Chain' (· < ·)
        ((buildRangePages
            (fun p => (fs (publicDir ++ preUrl (resolverFileId pdfUrl) p)).isSome)
            (resolverFileId pdfUrl) (fun p => b64 (extract p)) f t).map
          PageEntry.pageNumber) := by
      rw [buildRangePages_map_pageNumber]
      exact (pairwise_lt_pagesInRange f t).chain'
    exact (List.chain'_map PageEntry.pageNumber).mp hch
  · rw [buildRangePages_map_pageNumber]
    exact (pairwise_lt_pagesInRange f t).imp (fun h => ne_of_lt h)
  · intro p
    rw [buildRangePages_map_pageNumber]
    exact mem_pagesInRange f t p

theorem rangeFetch_complete_sorted_witness :
    ∃ pages : List PageEntry,
      (postExtract wFs wParse wExtract wB64 wDocUrl none (some 2) (some 4)).1
          = ResolveResult.rangeOk pages 5 2 4
        ∧ pages.length = ((4 : Int) - 2 + 1).toNat
        ∧ pages.map PageEntry.pageNumber = pagesInRange 2 4
        ∧ List.Chain' (fun a b => a.pageNumber < b.pageNumber) pages
        ∧ (pages.map PageEntry.pageNumber).Nodup
        ∧ (∀ p : Int, p ∈ pages.map PageEntry.pageNumber ↔ 2 ≤ p ∧ p ≤ 4) :=
  rangeFetch_complete_sorted wFs wParse wExtract wB64 wDocUrl none 2 4 5 wDocBytes
    (by decide) (by simp [wFs]) rfl (by decide) (by decide) (by decide)

/-- C8: with both bounds supplied (and the document local, present and
parseable), the range fetch answers the 400 `Invalid page range` error if
and only if `fromPage < 1`, `toPage > totalPages` or `fromPage > toPage`
(the source's extra disjuncts `toPage < 1` and `fromPage > totalPages` are
subsumed); every other range is accepted and processed into a range
response. -/
theorem rangeFetch_validation (fs : String → Option String)
    (parse : String → Option Nat) (extract : Int → String) (b64 : String → String)
    (pdfUrl : String) (pn : Option Int) (f t : Int) (T : Nat) (bytes : String)
    (hloc : localPrefix.toList <+: pdfUrl.toList)
    (hfs : fs (publicDir ++ pdfUrl) = some bytes)
    (hparse : parse bytes = some T) :
    ((postExtract fs parse extract b64 pdfUrl pn (some f) (some t)).1
        = ResolveResult.badRequest invalidRangeMsg
      ↔ (f < 1 ∨ t > (T : Int) ∨ f > t))
    ∧ (¬ (f < 1 ∨ t > (T : Int) ∨ f > t) →
        ∃ pages : List PageEntry,
          (postExtract fs parse extract b64 pdfUrl pn (some f) (some t)).1
            = ResolveResult.rangeOk pages T f t) := by
  have hiff : (f < 1 ∨ t < 1 ∨ f > (T : Int) ∨ t > (T : Int) ∨ f > t)
      ↔ (f < 1 ∨ t > (T : Int) ∨ f > t) := by omega
  by_cases hc : f < 1 ∨ t < 1 ∨ f > (T : Int) ∨ t > (T : Int) ∨ f > t
  · have hres : (postExtract fs parse extract b64 pdfUrl pn (some f) (some t)).1
        = ResolveResult.badRequest invalidRangeMsg := by
      simp only [postExtract, hfs, hparse, if_pos hloc, if_pos hc]
    constructor
    · rw [hres]
      exact iff_of_true rfl (hiff.mp hc)
    · intro hn
      exact absurd (hiff.mp hc) hn
  · have hres : (postExtract fs parse extract b64 pdfUrl pn (some f) (some t)).1
        = ResolveResult.rangeOk
            (buildRangePages
              (fun p => (fs (publicDir ++ preUrl (resolverFileId pdfUrl) p)).isSome)
              (resolverFileId pdfUrl) (fun p => b64 (extract p)) f t)
            T f t := by
      simp only [postExtract, hfs, hparse, if_pos hloc, if_neg hc]
    constructor
    · rw [hres]
      constructor
      · intro h
        exact absurd h (by simp)
      · intro h
        exact absurd (hiff.mpr h) hc
    · intro _
      exact ⟨_, hres⟩

theorem rangeFetch_validation_witness :
    ((postExtract wFs wParse wExtract wB64 wDocUrl none (some 3) (some 2)).1
        = ResolveResult.badRequest invalidRangeMsg
      ↔ ((3 : Int) < 1 ∨ (2 : Int) > ((5 : Nat) : Int) ∨ (3 : Int) > 2))
    ∧ (¬ ((3 : Int) < 1 ∨ (2 : Int) > ((5 : Nat) : Int) ∨ (3 : Int) > 2) →
        ∃ pages : List PageEntry,
          (postExtract wFs wParse wExtract wB64 wDocUrl none (some 3) (some 2)).1
            = ResolveResult.rangeOk pages 5 3 2) :=
  rangeFetch_validation wFs wParse wExtract wB64 wDocUrl none 3 2 5 wDocBytes
    (by decide) (by simp [wFs]) rfl

/-- C9: a page fetch never writes: for every request the file system (which
holds both the artifact files and the status record) is returned unchanged;
and on a single-page cache miss the extracted bytes are returned inline to
the caller. -/
theorem pageFetch_pure :
    (∀ (fs : String → Option String) (parse : String → Option Nat)
        (extract : Int → String) (b64 : String → String) (pdfUrl : String)
        (pn f t : Option Int),
      (postExtract fs parse extract b64 pdfUrl pn f t).2.1 = fs)
    ∧ (∀ (fs : String → Option String) (parse : String → Option Nat)
        (extract : Int → String) (b64 : String → String) (pdfUrl : String)
        (p : Int) (T : Nat) (bytes : String),
      localPrefix.toList <+: pdfUrl.toList →
      fs (publicDir ++ pdfUrl) = some bytes →
      parse bytes = some T →
      1 ≤ p → p ≤ (T : Int) →
      fs (publicDir ++ preUrl (resolverFileId pdfUrl) p) = none →
      (postExtract fs parse extract b64 pdfUrl (some p) none none).1
          = ResolveResult.pageBytes (extract p) p) := by
  constructor
  · intro fs parse extract b64 pdfUrl pn f t
    unfold postExtract
    repeat' (first | rfl | split | dsimp only)
  · intro fs parse extract b64 pdfUrl p T bytes hloc hfs hparse hp1 hp2 hmiss
    have hval : ¬ (p < 1 ∨ p > (T : Int)) := by omega
    simp only [postExtract, hfs, hparse, if_pos hloc, if_neg hval, hmiss,
      Option.isSome_none, Bool.false_eq_true, if_false]

theorem pageFetch_pure_witness :
    (postExtract wFs wParse wExtract wB64 wDocUrl (some 3) none none).1
      = ResolveResult.pageBytes (wExtract 3) 3 :=
  pageFetch_pure.2 wFs wParse wExtract wB64 wDocUrl 3 5 wDocBytes
    (by decide) (by simp [wFs]) rfl (by decide) (by decide) (by decide)

/-- C10: when exactly one of `fromPage` and `toPage` is supplied and
`pageNumber` is absent, the range branch is not taken; the request falls
through to the single-page path and fails with the 400
`Missing pageNumber or page range` error, and no page is extracted. -/
theorem oneSidedRange_badRequest (fs : String → Option String)
    (parse : String → Option Nat) (extract : Int → String) (b64 : String → String)
    (pdfUrl : String) (fromPage toPage : Option Int) (T : Nat) (bytes : String)
    (hloc : localPrefix.toList <+: pdfUrl.toList)
    (hfs : fs (publicDir ++ pdfUrl) = some bytes)
    (hparse : parse bytes = some T)
    (hone : ((∃ x, fromPage = some x) ∧ toPage = none)
      ∨ (fromPage = none ∧ (∃ x, toPage = some x))) :
    (postExtract fs parse extract b64 pdfUrl none fromPage toPage).1
        = ResolveResult.badRequest missingPageMsg
      ∧ (postExtract fs parse extract b64 pdfUrl none fromPage toPage).2.2 = [] := by
  rcases hone with ⟨⟨x, rfl⟩, rfl⟩ | ⟨rfl, x, rfl⟩ <;>
    exact ⟨by simp only [postExtract, hfs, hparse, if_pos hloc],
      by simp only [postExtract, hfs, hparse, if_pos hloc]⟩

theorem oneSidedRange_badRequest_witness :
    (postExtract wFs wParse wExtract wB64 wDocUrl none (some 1) none).1
        = ResolveResult.badRequest missingPageMsg
      ∧ (postExtract wFs wParse wExtract wB64 wDocUrl none (some 1) none).2.2 = [] :=
  oneSidedRange_badRequest wFs wParse wExtract wB64 wDocUrl (some 1) none 5 wDocBytes
    (by decide) (by simp [wFs]) rfl (Or.inl ⟨⟨1, rfl⟩, rfl⟩)

end BookPdf
